import Mathlib

/-!
Verification of the text-correction pipeline of `src/main.py`
(Starlang Turkish Spell Checker Service).

Python strings are modelled as `List Char`.  The Unicode-dependent
primitives `str.isalpha`, `str.lower` and `str.split` are modelled
faithfully on the character ranges the program works with (ASCII,
Latin-1 Supplement and the Latin Extended-A letters used by Turkish);
characters outside these blocks are modelled as non-alphabetic and
case-invariant.  Floats are modelled as exact rationals: every value
the confidence computation produces on the claims' inputs is exactly
representable, and the claimed (in)equalities agree in both readings.
The spell checker (`spell_checker.spellCheck`) is an external capability
and is modelled as an abstract function `Oracle`; its three observable
outcomes at the call site are: the call raises, the returned object is
falsy, or it is truthy and `str()` of it yields a word.
-/

/-- Convenience: the character list of a string literal. -/
def chars (s : String) : List Char := s.toList

/-- The characters Python's `str.split()` splits on, restricted to ASCII
whitespace (space, tab, newline, carriage return, vertical tab, form feed). -/
def isPySpace (c : Char) : Bool :=
  c == ' ' || c == '\t' || c == '\n' || c == '\r' ||
    c == Char.ofNat 0x0B || c == Char.ofNat 0x0C

/-- Python's `str.isalpha` (Unicode letter categories), modelled on the
blocks that matter here: ASCII letters, the Latin-1 Supplement letters
(U+00C0..U+00FF without the two operators U+00D7 and U+00F7) and the whole
Latin Extended-A block U+0100..U+017F (all of whose code points are letters,
including the Turkish Ğ/ğ, İ/ı, Ş/ş).  Letters outside these blocks are
modelled as non-alphabetic. -/
def pyIsAlpha (c : Char) : Bool :=
  decide ((0x41 ≤ c.toNat ∧ c.toNat ≤ 0x5A) ∨ (0x61 ≤ c.toNat ∧ c.toNat ≤ 0x7A) ∨
    (0xC0 ≤ c.toNat ∧ c.toNat ≤ 0xFF ∧ c.toNat ≠ 0xD7 ∧ c.toNat ≠ 0xF7) ∨
    (0x100 ≤ c.toNat ∧ c.toNat ≤ 0x17F))

/-- The literal character set `'çÇğĞıİöÖşŞüÜ'` of `main.py` line 124. -/
def turkishChars : List Char := ['ç', 'Ç', 'ğ', 'Ğ', 'ı', 'İ', 'ö', 'Ö', 'ş', 'Ş', 'ü', 'Ü']

/-- The per-character keep test of `main.py` line 124:
`c.isalpha() or c in 'çÇğĞıİöÖşŞüÜ'`. -/
def keepChar (c : Char) : Bool := pyIsAlpha c || turkishChars.contains c

/-- `main.py` line 124: the clean word is the subsequence of kept characters,
`''.join(c for c in word if c.isalpha() or c in 'çÇğĞıİöÖşŞüÜ')`. -/
def cleanWord (word : List Char) : List Char := word.filter keepChar

/-- Python's `str.lower` on one character, modelled on ASCII, Latin-1 and
the Turkish Latin Extended-A letters.  Note the two behaviours the real
`str.lower` has that matter for the claims: `'I'` lowers to `'i'` (default
Unicode casing, not the Turkish `'ı'`), and `'İ'` (U+0130) lowers to the
two-code-point sequence `'i'` + U+0307 (combining dot above). -/
def pyLowerChar (c : Char) : List Char :=
  if 0x41 ≤ c.toNat ∧ c.toNat ≤ 0x5A then [Char.ofNat (c.toNat + 0x20)]
  else if 0xC0 ≤ c.toNat ∧ c.toNat ≤ 0xDE ∧ c.toNat ≠ 0xD7 then [Char.ofNat (c.toNat + 0x20)]
  else if c = 'Ğ' then ['ğ']
  else if c = 'İ' then ['i', Char.ofNat 0x307]
  else if c = 'Ş' then ['ş']
  else [c]

/-- Python's `str.lower` on a word. -/
def pyLowerStr : List Char → List Char
  | [] => []
  | c :: rest => pyLowerChar c ++ pyLowerStr rest

/-- Python's `str.strip()`: drop leading and trailing whitespace
(`main.py` line 115, `text = request.text.strip()`). -/
def pyStrip (s : List Char) : List Char :=
  ((s.dropWhile isPySpace).reverse.dropWhile isPySpace).reverse

/-- Worker for `pySplit`: `acc` is the (possibly empty) word currently being
accumulated. -/
def pySplitAux : List Char → List Char → List (List Char)
  | [], acc => if acc = [] then [] else [acc]
  | c :: rest, acc =>
    if isPySpace c then
      if acc = [] then pySplitAux rest [] else acc :: pySplitAux rest []
    else pySplitAux rest (acc ++ [c])

/-- Python's `str.split()` with no argument (`main.py` line 116): split on
runs of whitespace, producing no empty tokens. -/
def pySplit (s : List Char) : List (List Char) := pySplitAux s []

/-- Python's `' '.join(...)` (`main.py` line 161). -/
def joinSpace : List (List Char) → List Char
  | [] => []
  | [w] => w
  | w :: rest => w ++ ' ' :: joinSpace rest

/-- Worker for `pyReplace`, with explicit fuel (the fuel is always
initialised to the length of the scanned list, which suffices because the
pipeline only replaces non-empty patterns). -/
def pyReplaceAux (old new : List Char) : Nat → List Char → List Char
  | 0, s => s
  | fuel + 1, s =>
    match s with
    | [] => []
    | c :: rest =>
      if old <+: (c :: rest) then new ++ pyReplaceAux old new fuel ((c :: rest).drop old.length)
      else c :: pyReplaceAux old new fuel rest

/-- Python's `s.replace(old, new)` (`main.py` line 154,
`word.replace(clean_word, corrected_word)`): replace every non-overlapping
occurrence of `old` in `s`, left to right; if `old` does not occur, `s` is
returned unchanged.  The pipeline only ever calls this with `old` non-empty
(the empty clean word is filtered out at line 126). -/
def pyReplace (old new s : List Char) : List Char := pyReplaceAux old new s.length s

/-- The per-character table of the chained single-character
`str.replace` calls at `main.py` lines 253-256 — note it folds only the
six lowercase diacritic letters. -/
def foldLowerDiacritics (s : List Char) : List Char :=
  s.map fun c =>
    if c = 'ç' then 'c' else if c = 'ğ' then 'g' else if c = 'ı' then 'i'
    else if c = 'ö' then 'o' else if c = 'ş' then 's' else if c = 'ü' then 'u' else c

/-- The normalisation used by `determine_error_type` (`main.py` lines
253-256): the replace chain followed by `.lower()`.  The chained
single-character replaces commute into one character map because none of
the replacement characters (`c g i o s u`) is itself a pattern of a later
replace. -/
def normalizeWord (s : List Char) : List Char := pyLowerStr (foldLowerDiacritics s)

/-- `main.py` lines 245-265: classify an error.  The length-difference
branch at lines 262-263 returns the same tag `'spelling'` as the final
fall-through at line 265. -/
def determine_error_type (original corrected : List Char) : String :=
  if normalizeWord original = normalizeWord corrected then "diacritic"
  else if 2 < ((original.length : Int) - (corrected.length : Int)).natAbs then "spelling"
  else "spelling"

/-- `main.py` lines 229-243: the suggestion helper builds the empty list and
truncates it (`suggestions[:max_count]`); the surrounding `try` can only
return `[]` as well. -/
def get_suggestions (word : List Char) (maxCount : Nat) : List (List Char) :=
  ([] : List (List Char)).take maxCount

/-- What the body of `check_spelling` observes of one
`spell_checker.spellCheck(Sentence(clean_word))` call: the call raises, or
the returned sentence is falsy (`if corrected_sentence:` fails), or it is
truthy and `str(corrected_sentence)` yields a word. -/
inductive OracleReply where
  | raised : OracleReply
  | falsy : OracleReply
  | sentence : List Char → OracleReply
deriving DecidableEq

/-- The abstract spell-oracle capability. -/
def Oracle : Type := List Char → OracleReply

/-- One element of the `corrections` list (`main.py` lines 53-58;
the `processing_time_ms` response field is wall-clock observability and is
not modelled). -/
structure Correction where
  original : List Char
  corrected : List Char
  position : Nat
  type : String
  suggestions : List (List Char)
deriving DecidableEq

/-- The `CheckResponse` model (`main.py` lines 60-67), without the
wall-clock `processing_time_ms` field. -/
structure CheckResponse where
  original : List Char
  corrected : List Char
  corrections : List Correction
  confidence : ℚ
  wordsChecked : Nat
  errorsFound : Nat
deriving DecidableEq

instance : Inhabited CheckResponse := ⟨⟨[], [], [], 1, 0, 0⟩⟩

/-- The response of the `/check-word` endpoint (`main.py` lines 212-224). -/
structure WordResponse where
  original : List Char
  corrected : List Char
  isCorrect : Bool
  suggestions : List (List Char)
deriving DecidableEq

/-- The HTTP error outcomes of the two endpoints: 503, 400, 500. -/
inductive HTTPError where
  | serviceUnavailable : HTTPError
  | badRequest : HTTPError
  | processingError : HTTPError
deriving DecidableEq

/-- Outcome of the `/check` endpoint. -/
inductive CheckResult where
  | failure : HTTPError → CheckResult
  | success : CheckResponse → CheckResult
deriving DecidableEq

/-- Outcome of the `/check-word` endpoint. -/
inductive WordResult where
  | failure : HTTPError → WordResult
  | success : WordResponse → WordResult
deriving DecidableEq

/-- Outcome of the word loop of `check_spelling` (`main.py` lines 118-160):
either some word's oracle call raised (the exception escapes the loop and is
caught only by the request-level handler at lines 182-183), or the loop
finishes with the corrections list, the corrected-words list and the
`errors_found` counter. -/
inductive ProcResult where
  | raised : ProcResult
  | ok : List Correction → List (List Char) → Nat → ProcResult
deriving DecidableEq

/-- Prepend a token passed through unchanged. -/
def passToken (word : List Char) : ProcResult → ProcResult
  | .raised => .raised
  | .ok cs ws n => .ok cs (word :: ws) n

/-- Prepend a correction and its replaced token, incrementing `errors_found`. -/
def addCorrection (corr : Correction) (newWord : List Char) : ProcResult → ProcResult
  | .raised => .raised
  | .ok cs ws n => .ok (corr :: cs) (newWord :: ws) (n + 1)

/-- The word loop of `check_spelling` (`main.py` lines 122-159), processing
the token at index `i` first.  Per line 137, the oracle's word counts as a
correction iff it differs from the clean word under `str.lower`. -/
def processWords (oracle : Oracle) (maxSug : Nat) : List (List Char) → Nat → ProcResult
  | [], _ => .ok [] [] 0
  | word :: rest, i =>
    if cleanWord word = [] then passToken word (processWords oracle maxSug rest (i + 1))
    else
      match oracle (cleanWord word) with
      | .raised => .raised
      | .falsy => passToken word (processWords oracle maxSug rest (i + 1))
      | .sentence corrected =>
        if pyLowerStr corrected ≠ pyLowerStr (cleanWord word) then
          addCorrection
            { original := cleanWord word
              corrected := corrected
              position := i
              type := determine_error_type (cleanWord word) corrected
              suggestions := get_suggestions (cleanWord word) maxSug }
            (pyReplace (cleanWord word) corrected word)
            (processWords oracle maxSug rest (i + 1))
        else passToken word (processWords oracle maxSug rest (i + 1))

/-- The `/check` endpoint, `main.py` lines 85-183.  `starlangAvailable` is
the module-level `STARLANG_AVAILABLE` flag; when it is false the endpoint
raises 503 (lines 99-103) before any processing.  Input validation (lines
105-109) rejects empty or over-long text with 400.  An oracle exception
anywhere in the loop is caught by the request-level handler and mapped to
500 (lines 182-183). -/
def check_spelling (starlangAvailable : Bool) (oracle : Oracle) (text : List Char)
    (maxSuggestions : Nat) : CheckResult :=
  if starlangAvailable = false then .failure .serviceUnavailable
  else if text = [] ∨ 10000 < text.length then .failure .badRequest
  else
    match processWords oracle maxSuggestions (pySplit (pyStrip text)) 0 with
    | .raised => .failure .processingError
    | .ok cs ws n =>
      .success
        { original := text
          corrected := joinSpace ws
          corrections := cs
          confidence :=
            if n = 0 then (1 : ℚ)
            else max (1 / 2 : ℚ)
              (1 - ((n : ℚ) / (((pySplit (pyStrip text)).length : ℚ))) * (1 / 2))
          wordsChecked := (pySplit (pyStrip text)).length
          errorsFound := n }

/-- The `/check-word` endpoint, `main.py` lines 185-227: 503 when the
library is unavailable, 400 on empty or over-long words, 500 when the
oracle call raises; the word is passed to the oracle verbatim (no
cleaning), and `is_correct` compares via `str.lower` (line 210). -/
def check_word (starlangAvailable : Bool) (oracle : Oracle) (word : List Char)
    (maxSuggestions : Nat) : WordResult :=
  if starlangAvailable = false then .failure .serviceUnavailable
  else if word = [] ∨ 100 < word.length then .failure .badRequest
  else
    match oracle word with
    | .raised => .failure .processingError
    | .falsy => .success { original := word, corrected := word, isCorrect := true, suggestions := [] }
    | .sentence cw =>
      .success
        { original := word
          corrected := cw
          isCorrect := pyLowerStr cw = pyLowerStr word
          suggestions :=
            if pyLowerStr cw = pyLowerStr word then [] else get_suggestions word maxSuggestions }

/-! ### Projections used by concrete counterexample statements -/

/-- The `errors_found` field of a successful `/check` response. -/
def checkErrors : CheckResult → Option Nat
  | .success r => some r.errorsFound
  | .failure _ => none

/-- The `corrected` field of a successful `/check` response. -/
def checkCorrected : CheckResult → Option (List Char)
  | .success r => some r.corrected
  | .failure _ => none

/-! ### Generic facts about the string primitives -/

theorem keepChar_not_space {c : Char} (h : keepChar c = true) : isPySpace c = false := by
  cases hs : isPySpace c with
  | false => rfl
  | true =>
    exfalso
    simp only [isPySpace, Bool.or_eq_true, beq_iff_eq] at hs
    rcases hs with ((((rfl | rfl) | rfl) | rfl) | rfl) | rfl <;>
      simp [keepChar, pyIsAlpha, turkishChars] at h

theorem pyLowerStr_append (s t : List Char) :
    pyLowerStr (s ++ t) = pyLowerStr s ++ pyLowerStr t := by
  induction s with
  | nil => rfl
  | cons c rest ih => simp [pyLowerStr, ih]

/-! ### Tokenisation lemmas -/

/-- A run of non-whitespace characters is absorbed into the accumulator. -/
theorem pySplitAux_append (w : List Char) (hw : ∀ c ∈ w, isPySpace c = false) :
    ∀ s acc, pySplitAux (w ++ s) acc = pySplitAux s (acc ++ w) := by
  induction w with
  | nil => intro s acc; simp
  | cons c w' ih =>
    intro s acc
    have hc : isPySpace c = false := hw c (by simp)
    have hw' : ∀ x ∈ w', isPySpace x = false := fun x hx => hw x (by simp [hx])
    simp only [List.cons_append, pySplitAux, hc, Bool.false_eq_true, if_false, List.append_eq]
    rw [ih hw' s (acc ++ [c])]
    simp

/-- Every token produced by the splitter is non-empty and whitespace-free. -/
theorem pySplitAux_tokens : ∀ (s acc : List Char), (∀ c ∈ acc, isPySpace c = false) →
    ∀ t ∈ pySplitAux s acc, t ≠ [] ∧ ∀ c ∈ t, isPySpace c = false
  | [], acc, hacc => by
    intro t ht
    by_cases h : acc = []
    · simp [pySplitAux, h] at ht
    · simp only [pySplitAux, h, if_false, List.mem_singleton] at ht
      exact ht ▸ ⟨h, hacc⟩
  | c :: rest, acc, hacc => by
    intro t ht
    by_cases hc : isPySpace c = true
    · by_cases h : acc = []
      · simp only [pySplitAux, hc, h, if_true] at ht
        exact pySplitAux_tokens rest [] (by simp) t ht
      · simp only [pySplitAux, hc, h, if_true, if_false, List.mem_cons] at ht
        rcases ht with rfl | ht
        · exact ⟨h, hacc⟩
        · exact pySplitAux_tokens rest [] (by simp) t ht
    · simp only [pySplitAux, hc, if_false] at ht
      refine pySplitAux_tokens rest (acc ++ [c]) ?_ t ht
      intro x hx
      rcases List.mem_append.mp hx with hx | hx
      · exact hacc x hx
      · simp only [List.mem_singleton] at hx
        subst hx
        simpa using hc

/-- Every token of `pySplit` is non-empty and whitespace-free. -/
theorem pySplit_tokens (s : List Char) :
    ∀ t ∈ pySplit s, t ≠ [] ∧ ∀ c ∈ t, isPySpace c = false :=
  pySplitAux_tokens s [] (by simp)

/-- Splitting the space-join of non-empty whitespace-free words recovers
exactly the words. -/
theorem pySplit_joinSpace : ∀ ws : List (List Char),
    (∀ w ∈ ws, w ≠ [] ∧ ∀ c ∈ w, isPySpace c = false) →
    pySplit (joinSpace ws) = ws
  | [], _ => rfl
  | [w], h => by
    obtain ⟨hne, hns⟩ := h w (by simp)
    show pySplitAux (joinSpace [w]) [] = [w]
    have : joinSpace [w] = w ++ [] := by simp [joinSpace]
    rw [this, pySplitAux_append w hns [] []]
    simp [pySplitAux, hne]
  | w :: w₂ :: rest, h => by
    obtain ⟨hne, hns⟩ := h w (by simp)
    have htail : ∀ x ∈ w₂ :: rest, x ≠ [] ∧ ∀ c ∈ x, isPySpace c = false :=
      fun x hx => h x (by simp [List.mem_cons] at hx ⊢; tauto)
    show pySplitAux (joinSpace (w :: w₂ :: rest)) [] = w :: w₂ :: rest
    have hj : joinSpace (w :: w₂ :: rest) = w ++ ' ' :: joinSpace (w₂ :: rest) := rfl
    rw [hj, pySplitAux_append w hns (' ' :: joinSpace (w₂ :: rest)) []]
    have hstep : pySplitAux (' ' :: joinSpace (w₂ :: rest)) ([] ++ w) =
        w :: pySplitAux (joinSpace (w₂ :: rest)) [] := by
      simp only [List.nil_append, pySplitAux]
      rw [if_pos (by rfl), if_neg hne]
    rw [hstep]
    exact congrArg (w :: ·) (pySplit_joinSpace (w₂ :: rest) htail)

/-- The space-join of non-empty words starts with a non-whitespace character. -/
theorem joinSpace_head : ∀ ws : List (List Char), ws ≠ [] →
    (∀ w ∈ ws, w ≠ [] ∧ ∀ c ∈ w, isPySpace c = false) →
    ∃ c t, joinSpace ws = c :: t ∧ isPySpace c = false
  | [], hne, _ => absurd rfl hne
  | w :: rest, _, h => by
    obtain ⟨hwne, hwns⟩ := h w (by simp)
    obtain ⟨c, w', rfl⟩ := List.exists_cons_of_ne_nil hwne
    have hc : isPySpace c = false := hwns c (by simp)
    cases rest with
    | nil => exact ⟨c, w', rfl, hc⟩
    | cons w₂ rest₂ => exact ⟨c, w' ++ ' ' :: joinSpace (w₂ :: rest₂), rfl, hc⟩

/-- The reverse of the space-join of non-empty whitespace-free words starts
with a non-whitespace character. -/
theorem joinSpace_reverse_head : ∀ ws : List (List Char), ws ≠ [] →
    (∀ w ∈ ws, w ≠ [] ∧ ∀ c ∈ w, isPySpace c = false) →
    ∃ c t, (joinSpace ws).reverse = c :: t ∧ isPySpace c = false
  | [], hne, _ => absurd rfl hne
  | [w], _, h => by
    obtain ⟨hwne, hwns⟩ := h w (by simp)
    have : w.reverse ≠ [] := by simpa using hwne
    obtain ⟨c, t, hct⟩ := List.exists_cons_of_ne_nil this
    refine ⟨c, t, by simpa [joinSpace] using hct, ?_⟩
    have : c ∈ w.reverse := by rw [hct]; simp
    exact hwns c (List.mem_reverse.mp this)
  | w :: w₂ :: rest, _, h => by
    have htail : ∀ x ∈ w₂ :: rest, x ≠ [] ∧ ∀ c ∈ x, isPySpace c = false :=
      fun x hx => h x (by simp [List.mem_cons] at hx ⊢; tauto)
    obtain ⟨c, t, hct, hc⟩ := joinSpace_reverse_head (w₂ :: rest) (by simp) htail
    refine ⟨c, t ++ [' '] ++ w.reverse, ?_, hc⟩
    have hj : joinSpace (w :: w₂ :: rest) = w ++ ' ' :: joinSpace (w₂ :: rest) := rfl
    rw [hj]
    simp [List.reverse_append, hct]

/-- Stripping the space-join of non-empty whitespace-free words changes
nothing. -/
theorem pyStrip_joinSpace (ws : List (List Char)) (hne : ws ≠ [])
    (h : ∀ w ∈ ws, w ≠ [] ∧ ∀ c ∈ w, isPySpace c = false) :
    pyStrip (joinSpace ws) = joinSpace ws := by
  obtain ⟨c, t, hct, hc⟩ := joinSpace_head ws hne h
  obtain ⟨c', t', hct', hc'⟩ := joinSpace_reverse_head ws hne h
  unfold pyStrip
  rw [hct, List.dropWhile_cons, if_neg (by simp [hc]), ← hct, hct', List.dropWhile_cons,
    if_neg (by simp [hc']), ← hct', List.reverse_reverse]

/-! ### Replacement lemmas -/

theorem occurs_of_starts {α : Type} {l₁ l₂ : List α} (h : l₁ <+: l₂) : l₁ <:+: l₂ := by
  obtain ⟨t, ht⟩ := h
  exact ⟨[], t, by simpa using ht⟩

theorem occurs_cons_elim {α : Type} {l₁ l₂ : List α} {a : α} (h : l₁ <:+: a :: l₂) :
    l₁ <+: a :: l₂ ∨ l₁ <:+: l₂ := by
  obtain ⟨s, t, hst⟩ := h
  cases s with
  | nil => exact Or.inl ⟨t, by simpa using hst⟩
  | cons b s' =>
    right
    simp only [List.cons_append, List.cons.injEq] at hst
    exact ⟨s', t, hst.2⟩

theorem occurs_cons_of_occurs {α : Type} {l₁ l₂ : List α} (a : α) (h : l₁ <:+: l₂) :
    l₁ <:+: a :: l₂ := by
  obtain ⟨s, t, hst⟩ := h
  exact ⟨a :: s, t, by simp [hst]⟩

/-- If the pattern does not occur in the scanned list, the replacement
loop returns the list unchanged. -/
theorem pyReplaceAux_no_occurrence (old new : List Char) :
    ∀ (fuel : Nat) (s : List Char), ¬ old <:+: s → pyReplaceAux old new fuel s = s
  | 0, s, _ => rfl
  | fuel + 1, s, h => by
    cases s with
    | nil => rfl
    | cons c rest =>
      have hpre : ¬ old <+: c :: rest := fun hp => h (occurs_of_starts hp)
      have hrest : ¬ old <:+: rest := fun hi => h (occurs_cons_of_occurs c hi)
      simp only [pyReplaceAux, if_neg hpre]
      rw [pyReplaceAux_no_occurrence old new fuel rest hrest]

/-- Python's `str.replace`: no occurrence means no change. -/
theorem pyReplace_no_occurrence (old new s : List Char) (h : ¬ old <:+: s) :
    pyReplace old new s = s :=
  pyReplaceAux_no_occurrence old new s.length s h

/-- A non-empty all-kept pattern cannot occur in a list whose kept
characters filter to nothing. -/
theorem no_occurrence_of_filter_nil {old s : List Char} (hold : old ≠ [])
    (hkeep : ∀ c ∈ old, keepChar c = true) (hs : s.filter keepChar = []) :
    ¬ old <:+: s := by
  intro h
  have hsub : List.Sublist old s := h.sublist
  have hfsub : List.Sublist (old.filter keepChar) (s.filter keepChar) := hsub.filter keepChar
  rw [hs, List.filter_eq_self.mpr hkeep] at hfsub
  exact hold (List.sublist_nil.mp hfsub)

/-- Every character of the replacement output comes from the scanned list or
from the replacement word. -/
theorem pyReplaceAux_chars (old new : List Char) :
    ∀ (fuel : Nat) (s : List Char) (c : Char),
      c ∈ pyReplaceAux old new fuel s → c ∈ s ∨ c ∈ new
  | 0, s, c, h => Or.inl h
  | fuel + 1, s, c, h => by
    cases s with
    | nil => simp [pyReplaceAux] at h
    | cons b rest =>
      by_cases hpre : old <+: b :: rest
      · simp only [pyReplaceAux, if_pos hpre, List.mem_append] at h
        rcases h with h | h
        · exact Or.inr h
        · rcases pyReplaceAux_chars old new fuel ((b :: rest).drop old.length) c h with h | h
          · exact Or.inl (List.mem_of_mem_drop h)
          · exact Or.inr h
      · simp only [pyReplaceAux, if_neg hpre, List.mem_cons] at h
        rcases h with rfl | h
        · exact Or.inl (by simp)
        · rcases pyReplaceAux_chars old new fuel rest c h with h | h
          · exact Or.inl (by simp [h])
          · exact Or.inr h

/-- The replacement output is non-empty whenever the scanned list and the
replacement word are. -/
theorem pyReplaceAux_ne_nil (old new : List Char) (hnew : new ≠ []) :
    ∀ (fuel : Nat) (s : List Char), s ≠ [] → pyReplaceAux old new fuel s ≠ []
  | 0, s, hs => by simpa [pyReplaceAux] using hs
  | fuel + 1, s, hs => by
    cases s with
    | nil => exact absurd rfl hs
    | cons b rest =>
      by_cases hpre : old <+: b :: rest
      · simp only [pyReplaceAux, if_pos hpre]
        simp [hnew]
      · simp [pyReplaceAux, if_neg hpre]

/-- Key replacement lemma: if the kept characters of `s` are exactly the
non-empty pattern `old`, `old` occurs contiguously in `s`, and every
character of `new` is kept, then the kept characters of the replaced list
are exactly `new`. -/
theorem pyReplaceAux_cons (old new : List Char) (fuel : Nat) (c : Char) (rest : List Char) :
    pyReplaceAux old new (fuel + 1) (c :: rest) =
      if old <+: (c :: rest) then new ++ pyReplaceAux old new fuel ((c :: rest).drop old.length)
      else c :: pyReplaceAux old new fuel rest := rfl

theorem filter_pyReplaceAux (old new : List Char) (hold : old ≠ [])
    (holdkeep : ∀ c ∈ old, keepChar c = true) (hnew : ∀ c ∈ new, keepChar c = true) :
    ∀ (fuel : Nat) (s : List Char), s.length ≤ fuel → s.filter keepChar = old →
      old <:+: s → (pyReplaceAux old new fuel s).filter keepChar = new
  | 0, s, hlen, hfil, _ => by
    have : s = [] := List.length_eq_zero.mp (Nat.le_zero.mp hlen)
    subst this
    exact absurd hfil.symm (by simpa using hold)
  | fuel + 1, s, hlen, hfil, hocc => by
    cases s with
    | nil => exact absurd hfil.symm (by simpa using hold)
    | cons b rest =>
      by_cases hpre : old <+: b :: rest
      · have hpre' := hpre
        obtain ⟨t, ht⟩ := hpre'
        have hdrop : (b :: rest).drop old.length = t := by
          rw [← ht, List.drop_left]
        have hfil_t : t.filter keepChar = [] := by
          have hfa : old ++ t.filter keepChar = old ++ [] := by
            have : (old ++ t).filter keepChar = old := by rw [ht]; exact hfil
            rw [List.filter_append, List.filter_eq_self.mpr holdkeep] at this
            simpa using this
          exact List.append_cancel_left hfa
        have hno : ¬ old <:+: t := no_occurrence_of_filter_nil hold holdkeep hfil_t
        rw [pyReplaceAux_cons, if_pos hpre, hdrop,
          pyReplaceAux_no_occurrence old new fuel t hno, List.filter_append,
          List.filter_eq_self.mpr hnew, hfil_t, List.append_nil]
      · rcases occurs_cons_elim hocc with h | hocc'
        · exact absurd h hpre
        · have hb : keepChar b = false := by
            cases hkb : keepChar b with
            | false => rfl
            | true =>
              exfalso
              rw [List.filter_cons_of_pos hkb] at hfil
              have hsub : List.Sublist old rest := hocc'.sublist
              have hfsub : List.Sublist (old.filter keepChar) (rest.filter keepChar) :=
                hsub.filter keepChar
              rw [List.filter_eq_self.mpr holdkeep, ← hfil] at hfsub
              have := hfsub.length_le
              simp at this
          rw [List.filter_cons_of_neg (by simp [hb])] at hfil
          rw [pyReplaceAux_cons, if_neg hpre, List.filter_cons_of_neg (by simp [hb])]
          exact filter_pyReplaceAux old new hold holdkeep hnew fuel rest
            (by simpa using Nat.le_of_succ_le_succ hlen) hfil hocc'

/-- `pyReplace` version of the key replacement lemma: cleaning the replaced
token yields exactly the correction word. -/
theorem cleanWord_pyReplace (old new s : List Char) (hold : old ≠ [])
    (holdkeep : ∀ c ∈ old, keepChar c = true) (hnew : ∀ c ∈ new, keepChar c = true)
    (hfil : cleanWord s = old) (hocc : old <:+: s) :
    cleanWord (pyReplace old new s) = new :=
  filter_pyReplaceAux old new hold holdkeep hnew s.length s le_rfl hfil hocc

/-! ### Word-loop lemmas -/

theorem processWords_cons (oracle : Oracle) (m : Nat) (word : List Char)
    (rest : List (List Char)) (i : Nat) :
    processWords oracle m (word :: rest) i =
      if cleanWord word = [] then passToken word (processWords oracle m rest (i + 1))
      else
        match oracle (cleanWord word) with
        | .raised => .raised
        | .falsy => passToken word (processWords oracle m rest (i + 1))
        | .sentence corrected =>
          if pyLowerStr corrected ≠ pyLowerStr (cleanWord word) then
            addCorrection
              { original := cleanWord word
                corrected := corrected
                position := i
                type := determine_error_type (cleanWord word) corrected
                suggestions := get_suggestions (cleanWord word) m }
              (pyReplace (cleanWord word) corrected word)
              (processWords oracle m rest (i + 1))
          else passToken word (processWords oracle m rest (i + 1)) := rfl

/-- Structural invariants of the word loop: the `errors_found` counter equals
the number of collected corrections and is bounded by the number of words,
one output token is produced per input token, and the recorded positions are
the strictly increasing indices of the corrected tokens, all within range. -/
theorem processWords_invariants (oracle : Oracle) (m : Nat) :
    ∀ (words : List (List Char)) (i : Nat) (cs : List Correction)
      (ws : List (List Char)) (n : Nat),
      processWords oracle m words i = .ok cs ws n →
      n = cs.length ∧ n ≤ words.length ∧ ws.length = words.length ∧
        (∀ c ∈ cs, i ≤ c.position ∧ c.position < i + words.length) ∧
        (cs.map fun c => c.position).Pairwise (· < ·) := by
  intro words
  induction words with
  | nil =>
    intro i cs ws n h
    simp only [processWords] at h
    obtain ⟨rfl, rfl, rfl⟩ : cs = [] ∧ ws = [] ∧ n = 0 := by
      cases h; exact ⟨rfl, rfl, rfl⟩
    simp
  | cons word rest ih =>
    intro i cs ws n h
    rw [processWords_cons] at h
    have hpass : ∀ (h' : passToken word (processWords oracle m rest (i + 1)) = .ok cs ws n),
        n = cs.length ∧ n ≤ (word :: rest).length ∧ ws.length = (word :: rest).length ∧
          (∀ c ∈ cs, i ≤ c.position ∧ c.position < i + (word :: rest).length) ∧
          (cs.map fun c => c.position).Pairwise (· < ·) := by
      intro h'
      cases hrec : processWords oracle m rest (i + 1) with
      | raised => rw [hrec] at h'; exact absurd h' (by simp [passToken])
      | ok cs₀ ws₀ n₀ =>
        rw [hrec] at h'
        simp only [passToken, ProcResult.ok.injEq] at h'
        obtain ⟨hcs, hws, hn⟩ := h'
        subst hcs; subst hws; subst hn
        obtain ⟨h1, h2, h3, h4, h5⟩ := ih (i + 1) cs₀ ws₀ n₀ hrec
        refine ⟨h1, by simpa using Nat.le_succ_of_le h2, by simp [h3], ?_, h5⟩
        intro c hc
        obtain ⟨hc1, hc2⟩ := h4 c hc
        constructor
        · omega
        · simp only [List.length_cons]; omega
    split at h
    · exact hpass h
    · split at h
      · exact absurd h (by simp)
      · exact hpass h
      · rename_i corrected _
        split at h
        · cases hrec : processWords oracle m rest (i + 1) with
          | raised => rw [hrec] at h; exact absurd h (by simp [addCorrection])
          | ok cs₀ ws₀ n₀ =>
            rw [hrec] at h
            simp only [addCorrection, ProcResult.ok.injEq] at h
            obtain ⟨hcs, hws, hn⟩ := h
            subst hcs; subst hws; subst hn
            obtain ⟨h1, h2, h3, h4, h5⟩ := ih (i + 1) cs₀ ws₀ n₀ hrec
            refine ⟨by simp [h1], by simpa using Nat.succ_le_succ h2, by simp [h3], ?_, ?_⟩
            · intro c hc
              rcases List.mem_cons.mp hc with rfl | hc
              · simp
              · obtain ⟨hc1, hc2⟩ := h4 c hc
                constructor
                · omega
                · simp only [List.length_cons]; omega
            · rw [List.map_cons, List.pairwise_cons]
              refine ⟨?_, h5⟩
              intro p hp
              obtain ⟨c, hc, rfl⟩ := List.mem_map.mp hp
              have := (h4 c hc).1
              simpa using this
        · exact hpass h

/-- Every correction collected by the word loop carries the (always empty)
suggestion list produced by `get_suggestions`. -/
theorem processWords_suggestions (oracle : Oracle) (m : Nat) :
    ∀ (words : List (List Char)) (i : Nat) (cs : List Correction)
      (ws : List (List Char)) (n : Nat),
      processWords oracle m words i = .ok cs ws n →
      ∀ c ∈ cs, c.suggestions = [] := by
  intro words
  induction words with
  | nil =>
    intro i cs ws n h c hc
    simp only [processWords] at h
    obtain ⟨rfl, -, -⟩ : cs = [] ∧ ws = [] ∧ n = 0 := by cases h; exact ⟨rfl, rfl, rfl⟩
    simp at hc
  | cons word rest ih =>
    intro i cs ws n h c hc
    rw [processWords_cons] at h
    have hpass : ∀ (h' : passToken word (processWords oracle m rest (i + 1)) = .ok cs ws n),
        c.suggestions = [] := by
      intro h'
      cases hrec : processWords oracle m rest (i + 1) with
      | raised => rw [hrec] at h'; exact absurd h' (by simp [passToken])
      | ok cs₀ ws₀ n₀ =>
        rw [hrec] at h'
        simp only [passToken, ProcResult.ok.injEq] at h'
        obtain ⟨hcs, -, -⟩ := h'
        subst hcs
        exact ih (i + 1) cs₀ ws₀ n₀ hrec c hc
    split at h
    · exact hpass h
    · split at h
      · exact absurd h (by simp)
      · exact hpass h
      · split at h
        · cases hrec : processWords oracle m rest (i + 1) with
          | raised => rw [hrec] at h; exact absurd h (by simp [addCorrection])
          | ok cs₀ ws₀ n₀ =>
            rw [hrec] at h
            simp only [addCorrection, ProcResult.ok.injEq] at h
            obtain ⟨hcs, -, -⟩ := h
            subst hcs
            rcases List.mem_cons.mp hc with rfl | hc
            · simp [get_suggestions]
            · exact ih (i + 1) cs₀ ws₀ n₀ hrec c hc
        · exact hpass h

/-- If the oracle call for some word of the list raises, the whole loop
raises: nothing in the loop catches the exception. -/
theorem processWords_raised (oracle : Oracle) (m : Nat) :
    ∀ (words : List (List Char)) (i : Nat),
      (∃ w ∈ words, cleanWord w ≠ [] ∧ oracle (cleanWord w) = .raised) →
      processWords oracle m words i = .raised := by
  intro words
  induction words with
  | nil => intro i h; simp at h
  | cons word rest ih =>
    intro i ⟨w, hw, hcw, hor⟩
    rw [processWords_cons]
    rcases List.mem_cons.mp hw with rfl | hw
    · rw [if_neg hcw, hor]
    · have hrec : processWords oracle m rest (i + 1) = .raised := ih (i + 1) ⟨w, hw, hcw, hor⟩
      split
      · rw [hrec]; rfl
      · split
        · rfl
        · rw [hrec]; rfl
        · split
          · rw [hrec]; rfl
          · rw [hrec]; rfl

/-- The oracle reports no (effective) correction for `w`: the reply is falsy,
or its word equals `w` under `str.lower`. -/
def noCorrectionFor (oracle : Oracle) (w : List Char) : Prop :=
  oracle w = .falsy ∨ ∃ cw, oracle w = .sentence cw ∧ pyLowerStr cw = pyLowerStr w

/-- If every word of the list is pure punctuation or draws no effective
correction, the loop succeeds with zero errors and no corrections. -/
theorem processWords_noCorrection (oracle : Oracle) (m : Nat) :
    ∀ (words : List (List Char)) (i : Nat),
      (∀ w ∈ words, cleanWord w = [] ∨ noCorrectionFor oracle (cleanWord w)) →
      ∃ ws, processWords oracle m words i = .ok [] ws 0 := by
  intro words
  induction words with
  | nil => intro i _; exact ⟨[], rfl⟩
  | cons word rest ih =>
    intro i hall
    obtain ⟨ws₀, hrec⟩ := ih (i + 1) fun w hw => hall w (List.mem_cons_of_mem word hw)
    refine ⟨word :: ws₀, ?_⟩
    rw [processWords_cons]
    rcases hall word (List.mem_cons_self word rest) with hcw | hno
    · rw [if_pos hcw, hrec]; rfl
    · rcases hno with hfal | ⟨cw, hsen, hlow⟩
      · split
        · rw [hrec]; rfl
        · rw [hfal, hrec]; rfl
      · split
        · rw [hrec]; rfl
        · simp only [hsen]
          rw [if_neg (by simpa using hlow), hrec]
          rfl

/-- The oracle is consistent in the sense of the idempotence claim: any word
it has itself produced as an (effective) correction draws no further
effective correction. -/
def consistentOracle (oracle : Oracle) : Prop :=
  ∀ w cw, oracle w = .sentence cw → pyLowerStr cw ≠ pyLowerStr w →
    noCorrectionFor oracle cw

/-- Every effective correction the oracle produces is a non-empty word made
of characters the cleaner keeps. -/
def wellFormedCorrections (oracle : Oracle) : Prop :=
  ∀ w cw, oracle w = .sentence cw → pyLowerStr cw ≠ pyLowerStr w →
    cw ≠ [] ∧ ∀ c ∈ cw, keepChar c = true

/-- Output-token lemma for idempotence: if the oracle is consistent and
well-formed, and every input token is a non-empty whitespace-free word whose
clean projection (when non-empty) occurs verbatim inside it, then every
output token of the loop is a non-empty whitespace-free word whose clean
projection draws no effective correction. -/
theorem processWords_output_tokens (oracle : Oracle) (m : Nat)
    (hcons : consistentOracle oracle) (hwf : wellFormedCorrections oracle) :
    ∀ (words : List (List Char)) (i : Nat) (cs : List Correction)
      (ws : List (List Char)) (n : Nat),
      processWords oracle m words i = .ok cs ws n →
      (∀ w ∈ words, (w ≠ [] ∧ ∀ c ∈ w, isPySpace c = false) ∧
        (cleanWord w ≠ [] → cleanWord w <:+: w)) →
      ∀ w ∈ ws, (w ≠ [] ∧ ∀ c ∈ w, isPySpace c = false) ∧
        (cleanWord w = [] ∨ noCorrectionFor oracle (cleanWord w)) := by
  intro words
  induction words with
  | nil =>
    intro i cs ws n h _ w hw
    simp only [processWords] at h
    obtain ⟨-, rfl, -⟩ : cs = [] ∧ ws = [] ∧ n = 0 := by cases h; exact ⟨rfl, rfl, rfl⟩
    simp at hw
  | cons word rest ih =>
    intro i cs ws n h hall
    rw [processWords_cons] at h
    have htail : ∀ w ∈ rest, (w ≠ [] ∧ ∀ c ∈ w, isPySpace c = false) ∧
        (cleanWord w ≠ [] → cleanWord w <:+: w) :=
      fun w hw => hall w (List.mem_cons_of_mem word hw)
    have hhead := hall word (List.mem_cons_self word rest)
    have hpass : (cleanWord word = [] ∨ noCorrectionFor oracle (cleanWord word)) →
        ∀ (h' : passToken word (processWords oracle m rest (i + 1)) = .ok cs ws n),
        ∀ w ∈ ws, (w ≠ [] ∧ ∀ c ∈ w, isPySpace c = false) ∧
          (cleanWord w = [] ∨ noCorrectionFor oracle (cleanWord w)) := by
      intro hno h'
      cases hrec : processWords oracle m rest (i + 1) with
      | raised => rw [hrec] at h'; exact absurd h' (by simp [passToken])
      | ok cs₀ ws₀ n₀ =>
        rw [hrec] at h'
        simp only [passToken, ProcResult.ok.injEq] at h'
        obtain ⟨-, hws, -⟩ := h'
        subst hws
        intro w hw
        rcases List.mem_cons.mp hw with rfl | hw
        · exact ⟨hhead.1, hno⟩
        · exact ih (i + 1) cs₀ ws₀ n₀ hrec htail w hw
    split at h
    · rename_i hcw
      exact hpass (Or.inl hcw) h
    · rename_i hcw
      split at h
      · exact absurd h (by simp)
      · rename_i heq
        exact hpass (Or.inr (Or.inl heq)) h
      · rename_i corrected heq
        split at h
        · rename_i hlow
          cases hrec : processWords oracle m rest (i + 1) with
          | raised => rw [hrec] at h; exact absurd h (by simp [addCorrection])
          | ok cs₀ ws₀ n₀ =>
            rw [hrec] at h
            simp only [addCorrection, ProcResult.ok.injEq] at h
            obtain ⟨-, hws, -⟩ := h
            subst hws
            obtain ⟨hcwne, hcwkeep⟩ := hwf (cleanWord word) corrected heq hlow
            have hclean : cleanWord (pyReplace (cleanWord word) corrected word) = corrected :=
              cleanWord_pyReplace (cleanWord word) corrected word hcw
                (fun c hcmem => List.of_mem_filter hcmem) hcwkeep rfl (hhead.2 hcw)
            intro w hw
            rcases List.mem_cons.mp hw with rfl | hw
            · refine ⟨⟨?_, ?_⟩, ?_⟩
              · exact pyReplaceAux_ne_nil (cleanWord word) corrected hcwne
                  word.length word hhead.1.1
              · intro c hc
                rcases pyReplaceAux_chars (cleanWord word) corrected word.length word c hc
                    with hc | hc
                · exact hhead.1.2 c hc
                · exact keepChar_not_space (hcwkeep c hc)
              · rw [hclean]
                exact Or.inr (hcons (cleanWord word) corrected heq hlow)
            · exact ih (i + 1) cs₀ ws₀ n₀ hrec htail w hw
        · rename_i hlow
          have heqlow : pyLowerStr corrected = pyLowerStr (cleanWord word) := by
            by_contra hne
            exact hlow hne
          exact hpass (Or.inr (Or.inr ⟨corrected, heq, heqlow⟩)) h

/-- Elimination form of a successful `/check` call: recover the validation
facts, the loop result and the shape of every response field. -/
theorem check_spelling_success (oracle : Oracle) (text : List Char) (m : Nat)
    (r : CheckResponse) (h : check_spelling true oracle text m = .success r) :
    text ≠ [] ∧ text.length ≤ 10000 ∧
      ∃ cs ws n, processWords oracle m (pySplit (pyStrip text)) 0 = .ok cs ws n ∧
        r.original = text ∧ r.corrected = joinSpace ws ∧ r.corrections = cs ∧
        r.errorsFound = n ∧ r.wordsChecked = (pySplit (pyStrip text)).length ∧
        r.confidence = (if n = 0 then (1 : ℚ)
          else max (1 / 2 : ℚ)
            (1 - ((n : ℚ) / (((pySplit (pyStrip text)).length : ℚ))) * (1 / 2))) := by
  unfold check_spelling at h
  rw [if_neg (by simp)] at h
  split at h
  · exact absurd h (by simp)
  · rename_i hval
    push_neg at hval
    split at h
    · exact absurd h (by simp)
    · rename_i cs ws n heq
      refine ⟨hval.1, by omega, cs, ws, n, heq, ?_⟩
      cases h
      exact ⟨rfl, rfl, rfl, rfl, rfl, rfl⟩

/-! ### Claim C1 -/

/-- C1 (amended): when the spell-oracle capability was never initialised
(`STARLANG_AVAILABLE` is false), the full-text entry point does not degrade
gracefully; it fails with a service-unavailable error (HTTP 503) before any
processing, exactly like the single-word endpoint, and no result carrying a
zero-error count, full confidence or an "oracle unavailable" flag is
produced. -/
theorem unavailable_oracle_rejects_both_endpoints (oracle : Oracle) (text : List Char)
    (m : Nat) :
    check_spelling false oracle text m = .failure .serviceUnavailable ∧
      check_word false oracle text m = .failure .serviceUnavailable :=
  ⟨rfl, rfl⟩

/-- C1 counterexample: on the non-empty in-bound text `"deneme"` with the
oracle unavailable, `check_spelling` raises 503 instead of returning the
degraded zero-error result the claim describes. -/
theorem unavailable_oracle_returns_503 :
    check_spelling false (fun _ => OracleReply.falsy) (chars "deneme") 5 =
      .failure .serviceUnavailable := rfl

/-! ### Claim C2 -/

/-- C2 (amended): an oracle failure on a single word is NOT contained: the
exception escapes the word loop, is caught only by the request-level handler,
and the whole request fails with a processing error (HTTP 500) — the word is
not passed through and no result is returned. -/
theorem word_failure_fails_request (oracle : Oracle) (text : List Char) (m : Nat)
    (h1 : text ≠ []) (h2 : text.length ≤ 10000)
    (w : List Char) (hw : w ∈ pySplit (pyStrip text))
    (hcw : cleanWord w ≠ []) (hor : oracle (cleanWord w) = .raised) :
    check_spelling true oracle text m = .failure .processingError := by
  unfold check_spelling
  rw [if_neg (by simp), if_neg (by push_neg; exact ⟨h1, by omega⟩),
    processWords_raised oracle m (pySplit (pyStrip text)) 0 ⟨w, hw, hcw, hor⟩]

/-- C2 witness for the amended theorem, at the concrete text `"merhaba"`
with an oracle that raises on every lookup. -/
theorem word_failure_fails_request_witness :
    chars "merhaba" ∈ pySplit (pyStrip (chars "merhaba")) ∧
      check_spelling true (fun _ => OracleReply.raised) (chars "merhaba") 5 =
        .failure .processingError :=
  ⟨by decide,
    word_failure_fails_request (fun _ => OracleReply.raised) (chars "merhaba") 5
      (by decide) (by decide) (chars "merhaba") (by decide) (by decide) rfl⟩

/-- C2 counterexample: with a single-word text `"selam"` whose oracle lookup
raises, the request as a whole fails with HTTP 500, contradicting the
claimed containment ("the request as a whole still succeeds"). -/
theorem word_failure_returns_500 :
    check_spelling true (fun _ => OracleReply.raised) (chars "selam") 5 =
      .failure .processingError := rfl

/-! ### Claim C3 -/

/-- The classification rule exactly as the claim words it: fold every one of
the six extended diacritic letters, uppercase and lowercase occurrences
alike, to its base Latin letter, then lowercase. -/
def claimFoldChar (c : Char) : Char :=
  if c = 'ç' ∨ c = 'Ç' then 'c' else if c = 'ğ' ∨ c = 'Ğ' then 'g'
  else if c = 'ı' ∨ c = 'İ' then 'i' else if c = 'ö' ∨ c = 'Ö' then 'o'
  else if c = 'ş' ∨ c = 'Ş' then 's' else if c = 'ü' ∨ c = 'Ü' then 'u' else c

/-- The claim-side fold-and-lowercase normalisation. -/
def claimFold (s : List Char) : List Char := pyLowerStr (s.map claimFoldChar)

/-- C3 (amended): `determine_error_type` returns `'diacritic'` exactly when
the two words agree after the source's normalisation — which folds only the
six lowercase diacritic letters and then applies default lowercasing (so
uppercase diacritic letters lower to their dotted lowercase forms instead of
base letters) — and `'spelling'` otherwise; the length-difference check
never changes the outcome. -/
theorem classification_ignores_length (o c : List Char) :
    determine_error_type o c =
      if normalizeWord o = normalizeWord c then "diacritic" else "spelling" := by
  unfold determine_error_type
  by_cases h : normalizeWord o = normalizeWord c
  · rw [if_pos h, if_pos h]
  · rw [if_neg h, if_neg h]
    split <;> rfl

/-- C3 counterexample: `"ÇAM"` and `"CAM"` are equal under the claim's fold
(which covers uppercase diacritics), so the claim classifies the pair as
`'diacritic'`; the code classifies it as `'spelling'`, because the chained
replaces at lines 253-256 fold only lowercase diacritics and run before
`.lower()`. -/
theorem uppercase_diacritic_classified_spelling :
    claimFold (chars "ÇAM") = claimFold (chars "CAM") ∧
      determine_error_type (chars "ÇAM") (chars "CAM") = "spelling" :=
  ⟨rfl, rfl⟩

/-! ### Claim C6 -/

/-- C6 (amended): when the clean word does not occur verbatim as a substring
of the original token, Python's `str.replace` at line 154 is a no-op, so the
token appears in the corrected text UNCHANGED — the fallback is the original
token (punctuation and all), not the bare corrected word. -/
theorem missing_clean_substring_keeps_token (old new s : List Char)
    (h : ¬ old <:+: s) : pyReplace old new s = s :=
  pyReplace_no_occurrence old new s h

/-- C6 witness for the amended theorem: the clean word `"ab"` of the token
`"a.b"` is not a substring of it, and the replacement leaves the token
unchanged. -/
theorem missing_clean_substring_keeps_token_witness :
    ¬ (chars "ab" <:+: chars "a.b") ∧
      pyReplace (chars "ab") (chars "abc") (chars "a.b") = chars "a.b" :=
  ⟨by decide, missing_clean_substring_keeps_token (chars "ab") (chars "abc")
    (chars "a.b") (by decide)⟩

/-- The oracle of the C6 counterexample: it corrects the clean word `"ab"`
to `"abc"`. -/
def oracleC6 : Oracle := fun w => if w = chars "ab" then .sentence (chars "abc") else .falsy

/-- C6 counterexample: for the token `"a.b"` (clean word `"ab"`, corrected
to `"abc"`) a correction is produced, yet the corrected text still contains
the original token `"a.b"`, not the bare corrected word `"abc"` that the
claim promises. -/
theorem fallback_is_not_corrected_word :
    checkErrors (check_spelling true oracleC6 (chars "a.b") 5) = some 1 ∧
      checkCorrected (check_spelling true oracleC6 (chars "a.b") 5) = some (chars "a.b") ∧
      chars "a.b" ≠ chars "abc" :=
  ⟨rfl, rfl, by decide⟩

/-! ### Claim C8 -/

/-- C8 (amended): the clean-word projection keeps exactly the characters
that are alphabetic in Python's Unicode sense (`str.isalpha`, any letter of
any script in the modelled blocks) or belong to the literal Turkish set —
not only basic Latin letters. -/
theorem cleanWord_keeps_alpha_or_turkish (w : List Char) (c : Char) :
    c ∈ cleanWord w ↔ c ∈ w ∧ keepChar c = true := by
  simp [cleanWord, List.mem_filter]

/-- The keep test exactly as the claim words it: letters of the basic Latin
alphabet, or one of the target language's special diacritic letters. -/
def claimBasicKeep (c : Char) : Bool :=
  decide ((0x41 ≤ c.toNat ∧ c.toNat ≤ 0x5A) ∨ (0x61 ≤ c.toNat ∧ c.toNat ≤ 0x7A)) ||
    turkishChars.contains c

/-- C8 counterexample: `'é'` is neither a basic Latin letter nor one of the
twelve Turkish diacritic letters, so the claim's projection drops it; but
`'é'.isalpha()` is true, so the code keeps it. -/
theorem clean_keeps_nonlatin_letter :
    cleanWord (chars "é1") = chars "é" ∧ claimBasicKeep 'é' = false ∧
      (chars "é1").filter claimBasicKeep = [] :=
  ⟨rfl, rfl, rfl⟩

/-! ### Claim C7 -/

/-- Turkish lowercasing as the claim requires it: the dotless/dotted pairs
map as `'I' ↦ 'ı'` and `'İ' ↦ 'i'`; all other letters lower as usual. -/
def turkishLowerChar (c : Char) : Char :=
  if c = 'I' then 'ı'
  else if c = 'İ' then 'i'
  else if 0x41 ≤ c.toNat ∧ c.toNat ≤ 0x5A then Char.ofNat (c.toNat + 0x20)
  else if 0xC0 ≤ c.toNat ∧ c.toNat ≤ 0xDE ∧ c.toNat ≠ 0xD7 then Char.ofNat (c.toNat + 0x20)
  else if c = 'Ğ' then 'ğ'
  else if c = 'Ş' then 'ş'
  else c

/-- Turkish lowercasing of a word (claim-side definition). -/
def turkishLower (s : List Char) : List Char := s.map turkishLowerChar

/-- C7 (amended): for a checked token whose oracle lookup returns a word,
the pipeline records a correction exactly when the oracle's word and the
clean word differ under Python's DEFAULT `str.lower` comparison (line 137)
— not under Turkish casing rules: `'I'` lowers to `'i'`, never to `'ı'`. -/
theorem correction_recorded_iff_pylower_differs (oracle : Oracle) (m : Nat)
    (word : List Char) (i : Nat) (corrected : List Char)
    (h1 : cleanWord word ≠ []) (h2 : oracle (cleanWord word) = .sentence corrected) :
    processWords oracle m [word] i =
      if pyLowerStr corrected ≠ pyLowerStr (cleanWord word) then
        .ok [{ original := cleanWord word, corrected := corrected, position := i,
               type := determine_error_type (cleanWord word) corrected,
               suggestions := get_suggestions (cleanWord word) m }]
          [pyReplace (cleanWord word) corrected word] 1
      else .ok [] [word] 0 := by
  rw [processWords_cons, if_neg h1]
  simp only [h2]
  by_cases hlow : pyLowerStr corrected ≠ pyLowerStr (cleanWord word)
  · rw [if_pos hlow, if_pos hlow]
    rfl
  · rw [if_neg hlow, if_neg hlow]
    rfl

/-- The oracle of the C7 instances: it maps the word `"ISPARTA"` to the
all-lowercase Turkish form `"ısparta"`. -/
def oracleC7 : Oracle :=
  fun w => if w = chars "ISPARTA" then .sentence (chars "ısparta") else .falsy

/-- C7 witness for the amended theorem: `"ISPARTA"` and `"ısparta"` differ
under `str.lower` (`"isparta"` vs `"ısparta"`), so a correction is recorded
— and it is classified `'diacritic'`, since the fold maps `'ı'` to `'i'`. -/
theorem correction_recorded_iff_pylower_differs_witness :
    cleanWord (chars "ISPARTA") ≠ [] ∧
      oracleC7 (cleanWord (chars "ISPARTA")) = .sentence (chars "ısparta") ∧
      processWords oracleC7 5 [chars "ISPARTA"] 0 =
        .ok [{ original := chars "ISPARTA", corrected := chars "ısparta", position := 0,
               type := "diacritic", suggestions := [] }] [chars "ısparta"] 1 :=
  ⟨by decide, rfl, by
    rw [correction_recorded_iff_pylower_differs oracleC7 5 (chars "ISPARTA") 0
      (chars "ısparta") (by decide) rfl]
    rfl⟩

/-- C7 counterexample: `"ISPARTA"` and `"ısparta"` are equal under Turkish
case-insensitive comparison, so under the claim no correction would be
recorded; the code compares with default `str.lower` and records one. -/
theorem turkish_equal_pair_still_corrected :
    turkishLower (chars "ısparta") = turkishLower (chars "ISPARTA") ∧
      checkErrors (check_spelling true oracleC7 (chars "ISPARTA") 5) = some 1 :=
  ⟨rfl, rfl⟩

/-! ### Claim C10 -/

/-- C10: `get_suggestions` produces the empty list for every word and every
truncation bound, so the suggestion list of every correction returned by the
full-text endpoint, and of every single-word response, is empty. -/
theorem suggestions_always_empty :
    (∀ (w : List Char) (n : Nat), get_suggestions w n = []) ∧
      (∀ (oracle : Oracle) (text : List Char) (m : Nat) (r : CheckResponse),
        check_spelling true oracle text m = .success r →
        ∀ c ∈ r.corrections, c.suggestions = []) ∧
      (∀ (oracle : Oracle) (w : List Char) (m : Nat) (res : WordResponse),
        check_word true oracle w m = .success res → res.suggestions = []) := by
  refine ⟨fun w n => by simp [get_suggestions], ?_, ?_⟩
  · intro oracle text m r h c hc
    obtain ⟨-, -, cs, ws, n, heq, -, -, hcors, -, -, -⟩ :=
      check_spelling_success oracle text m r h
    exact processWords_suggestions oracle m (pySplit (pyStrip text)) 0 cs ws n heq c
      (hcors ▸ hc)
  · intro oracle w m res h
    unfold check_word at h
    rw [if_neg (by simp)] at h
    split at h
    · exact absurd h (by simp)
    · split at h
      · exact absurd h (by simp)
      · cases h; rfl
      · cases h
        show (if _ then _ else _) = []
        split
        · rfl
        · simp [get_suggestions]

/-- The oracle of the C10 witness: it corrects `"br"` to `"bir"`. -/
def oracleC10 : Oracle := fun w => if w = chars "br" then .sentence (chars "bir") else .falsy

/-- The response of the C10 witness run. -/
def respC10 : CheckResponse :=
  match check_spelling true oracleC10 (chars "br dene") 5 with
  | .success r => r
  | .failure _ => default

/-- The single correction of the C10 witness run. -/
def corrC10 : Correction :=
  { original := chars "br", corrected := chars "bir", position := 0,
    type := "spelling", suggestions := [] }

/-- C10 witness: a concrete run that does produce a correction, whose
suggestion list the theorem shows to be empty. -/
theorem suggestions_always_empty_witness :
    check_spelling true oracleC10 (chars "br dene") 5 = .success respC10 ∧
      corrC10.suggestions = [] :=
  ⟨rfl, suggestions_always_empty.2.1 oracleC10 (chars "br dene") 5 respC10 rfl corrC10
    (by decide)⟩

/-! ### Claim C5 -/

/-- C5: in every successful `/check` response, `errors_found` equals the
length of the corrections list, and the recorded positions are strictly
increasing indices in `[0, words_checked)`. -/
theorem corrections_invariant (oracle : Oracle) (text : List Char) (m : Nat)
    (r : CheckResponse) (h : check_spelling true oracle text m = .success r) :
    r.errorsFound = r.corrections.length ∧
      (r.corrections.map fun c => c.position).Pairwise (· < ·) ∧
      ∀ c ∈ r.corrections, c.position < r.wordsChecked := by
  obtain ⟨-, -, cs, ws, n, heq, -, -, hcors, herr, hwords, -⟩ :=
    check_spelling_success oracle text m r h
  obtain ⟨h1, -, -, h4, h5⟩ :=
    processWords_invariants oracle m (pySplit (pyStrip text)) 0 cs ws n heq
  rw [herr, hcors, hwords]
  exact ⟨h1, h5, fun c hc => by simpa using (h4 c hc).2⟩

/-- The oracle of the C5 witness: it corrects `"ktp"` to `"kitap"`. -/
def oracleC5 : Oracle := fun w => if w = chars "ktp" then .sentence (chars "kitap") else .falsy

/-- The response of the C5 witness run. -/
def respC5 : CheckResponse :=
  match check_spelling true oracleC5 (chars "ktp al") 5 with
  | .success r => r
  | .failure _ => default

/-- C5 witness: a concrete run with one correction, to which the invariant
theorem applies. -/
theorem corrections_invariant_witness :
    check_spelling true oracleC5 (chars "ktp al") 5 = .success respC5 ∧
      respC5.errorsFound = respC5.corrections.length :=
  ⟨rfl, (corrections_invariant oracleC5 (chars "ktp al") 5 respC5 rfl).1⟩

/-! ### Claim C4 -/

/-- C4: in every successful `/check` response the confidence is `1` when no
errors were found and `max(0.5, 1 - (errorsFound / wordsChecked) * 0.5)`
otherwise; it always lies in `[0.5, 1]`, equals `1` exactly when
`errorsFound = 0`, and takes the boundary values `0.75` for 1 error in 2
words and `0.5` for 4 errors in 4 words. -/
theorem confidence_formula (oracle : Oracle) (text : List Char) (m : Nat)
    (r : CheckResponse) (h : check_spelling true oracle text m = .success r) :
    (r.errorsFound = 0 → r.confidence = 1) ∧
      (r.errorsFound ≠ 0 → r.confidence =
        max (1 / 2 : ℚ) (1 - ((r.errorsFound : ℚ) / (r.wordsChecked : ℚ)) * (1 / 2))) ∧
      (1 / 2 : ℚ) ≤ r.confidence ∧ r.confidence ≤ 1 ∧
      (r.confidence = 1 ↔ r.errorsFound = 0) ∧
      (r.errorsFound = 1 → r.wordsChecked = 2 → r.confidence = 3 / 4) ∧
      (r.errorsFound = 4 → r.wordsChecked = 4 → r.confidence = 1 / 2) := by
  obtain ⟨-, -, cs, ws, n, heq, -, -, -, herr, hwords, hconf⟩ :=
    check_spelling_success oracle text m r h
  obtain ⟨-, hle, -, -, -⟩ :=
    processWords_invariants oracle m (pySplit (pyStrip text)) 0 cs ws n heq
  rw [herr, hwords, hconf]
  by_cases hn : n = 0
  · subst hn
    norm_num
  · rw [if_neg hn]
    have hW : 0 < (pySplit (pyStrip text)).length := by omega
    have hWq : (0 : ℚ) < ((pySplit (pyStrip text)).length : ℚ) := by exact_mod_cast hW
    have hnq : (0 : ℚ) < (n : ℚ) := by exact_mod_cast Nat.pos_of_ne_zero hn
    have hx0 : (0 : ℚ) < (n : ℚ) / ((pySplit (pyStrip text)).length : ℚ) :=
      div_pos hnq hWq
    have hx1 : (n : ℚ) / ((pySplit (pyStrip text)).length : ℚ) ≤ 1 :=
      (div_le_one hWq).mpr (by exact_mod_cast hle)
    have hlt : max (1 / 2 : ℚ)
        (1 - ((n : ℚ) / (((pySplit (pyStrip text)).length : ℚ))) * (1 / 2)) < 1 :=
      max_lt (by norm_num) (by linarith)
    refine ⟨fun h0 => absurd h0 hn, fun _ => rfl, le_max_left _ _,
      max_le (by norm_num) (by linarith), ?_, ?_, ?_⟩
    · exact ⟨fun hm => absurd hm (ne_of_lt hlt), fun h0 => absurd h0 hn⟩
    · intro h1 h2
      rw [h1, h2]
      rw [show ((1 : Nat) : ℚ) / ((2 : Nat) : ℚ) * (1 / 2) = 1 / 4 by norm_num]
      rw [max_eq_right (by norm_num)]
      norm_num
    · intro h4 h4w
      rw [h4, h4w]
      rw [show ((4 : Nat) : ℚ) / ((4 : Nat) : ℚ) * (1 / 2) = 1 / 2 by norm_num]
      norm_num

/-- The oracle of the C4 witness: it corrects `"ev"` to `"evim"`. -/
def oracleC4 : Oracle := fun w => if w = chars "ev" then .sentence (chars "evim") else .falsy

/-- The response of the C4 witness run: 1 error out of 2 words. -/
def respC4 : CheckResponse :=
  match check_spelling true oracleC4 (chars "ev ve") 5 with
  | .success r => r
  | .failure _ => default

/-- C4 witness: the boundary case of the claim, 1 error out of 2 words,
whose confidence the theorem computes as `0.75`. -/
theorem confidence_formula_witness :
    check_spelling true oracleC4 (chars "ev ve") 5 = .success respC4 ∧
      respC4.confidence = 3 / 4 :=
  ⟨rfl, (confidence_formula oracleC4 (chars "ev ve") 5 respC4 rfl).2.2.2.2.2.1 rfl rfl⟩

/-! ### Claim C9 -/

/-- C9 (amended): re-running `/check` on the `corrected` text of a first
successful run yields zero errors, provided the oracle is consistent, every
effective correction it produces is a non-empty word of kept characters, and
each input token's clean projection occurs verbatim inside the token (so the
`str.replace` reinsertion actually fires). -/
theorem rerun_yields_no_errors (oracle : Oracle) (m₁ m₂ : Nat) (text : List Char)
    (r r₂ : CheckResponse)
    (hcons : consistentOracle oracle) (hwf : wellFormedCorrections oracle)
    (hinf : ∀ w ∈ pySplit (pyStrip text), cleanWord w ≠ [] → cleanWord w <:+: w)
    (h1 : check_spelling true oracle text m₁ = .success r)
    (h2 : check_spelling true oracle r.corrected m₂ = .success r₂) :
    r₂.errorsFound = 0 := by
  obtain ⟨-, -, cs, ws, n, heq, -, hcorr, -, -, -, -⟩ :=
    check_spelling_success oracle text m₁ r h1
  have hwords_in : ∀ w ∈ pySplit (pyStrip text),
      (w ≠ [] ∧ ∀ c ∈ w, isPySpace c = false) ∧
        (cleanWord w ≠ [] → cleanWord w <:+: w) :=
    fun w hw => ⟨pySplit_tokens (pyStrip text) w hw, hinf w hw⟩
  have hout := processWords_output_tokens oracle m₁ hcons hwf
    (pySplit (pyStrip text)) 0 cs ws n heq hwords_in
  obtain ⟨hne2, -, cs₂, ws₂, n₂, heq₂, -, -, -, herr₂, -, -⟩ :=
    check_spelling_success oracle r.corrected m₂ r₂ h2
  have hwsne : ws ≠ [] := by
    intro hws
    subst hws
    exact hne2 (by rw [hcorr]; rfl)
  have hwsgood : ∀ w ∈ ws, w ≠ [] ∧ ∀ c ∈ w, isPySpace c = false :=
    fun w hw => (hout w hw).1
  have hsplit : pySplit (pyStrip r.corrected) = ws := by
    rw [hcorr, pyStrip_joinSpace ws hwsne hwsgood, pySplit_joinSpace ws hwsgood]
  rw [hsplit] at heq₂
  obtain ⟨ws', hz⟩ := processWords_noCorrection oracle m₂ ws 0
    (fun w hw => (hout w hw).2)
  have hcomb := hz.symm.trans heq₂
  cases hcomb
  exact herr₂

/-- The oracle of the C9 counterexample: it corrects `"abab"` to `"ba"` and
reports no correction for anything else — in particular it is consistent. -/
def oracleC9x : Oracle :=
  fun w => if w = chars "abab" then .sentence (chars "ba") else .falsy

/-- C9 counterexample: the oracle is consistent, yet the pipeline is not
idempotent on `"ab1ab"`.  The token's clean word `"abab"` is not a substring
of `"ab1ab"`, so `str.replace` is a no-op: the first run's corrected text is
again `"ab1ab"`, and the second run — shown here literally as the run on
that corrected text — finds 1 error, not 0. -/
theorem rerun_not_idempotent :
    consistentOracle oracleC9x ∧
      checkCorrected (check_spelling true oracleC9x (chars "ab1ab") 5) =
        some (chars "ab1ab") ∧
      checkErrors (check_spelling true oracleC9x (chars "ab1ab") 5) = some 1 := by
  refine ⟨?_, rfl, rfl⟩
  intro w cw hsen hlow
  by_cases hw : w = chars "abab"
  · subst hw
    have hba : OracleReply.sentence (chars "ba") = OracleReply.sentence cw :=
      (rfl : oracleC9x (chars "abab") = OracleReply.sentence (chars "ba")).symm.trans hsen
    cases hba
    exact Or.inl rfl
  · have hf : oracleC9x w = .falsy := by
      unfold oracleC9x
      rw [if_neg hw]
    rw [hf] at hsen
    exact absurd hsen (by simp)

/-- The oracle of the C9 witness: it corrects `"ev"` to `"evin"`. -/
def oracleC9 : Oracle :=
  fun w => if w = chars "ev" then .sentence (chars "evin") else .falsy

/-- The response of the first C9 witness run on `"ev."`. -/
def respC9a : CheckResponse :=
  match check_spelling true oracleC9 (chars "ev.") 5 with
  | .success r => r
  | .failure _ => default

/-- The response of the second C9 witness run, on the corrected text of the
first. -/
def respC9b : CheckResponse :=
  match check_spelling true oracleC9 respC9a.corrected 5 with
  | .success r => r
  | .failure _ => default

/-- C9 witness: on `"ev."` the first run corrects to `"evin."`; the second
run on that corrected text yields zero errors, by the amended theorem. -/
theorem rerun_yields_no_errors_witness :
    consistentOracle oracleC9 ∧
      check_spelling true oracleC9 (chars "ev.") 5 = .success respC9a ∧
      check_spelling true oracleC9 respC9a.corrected 5 = .success respC9b ∧
      respC9b.errorsFound = 0 := by
  have hcons : consistentOracle oracleC9 := by
    intro w cw hsen hlow
    by_cases hw : w = chars "ev"
    · subst hw
      have hba : OracleReply.sentence (chars "evin") = OracleReply.sentence cw :=
        (rfl : oracleC9 (chars "ev") = OracleReply.sentence (chars "evin")).symm.trans hsen
      cases hba
      exact Or.inl rfl
    · have hf : oracleC9 w = .falsy := by
        unfold oracleC9
        rw [if_neg hw]
      rw [hf] at hsen
      exact absurd hsen (by simp)
  have hwf : wellFormedCorrections oracleC9 := by
    intro w cw hsen hlow
    by_cases hw : w = chars "ev"
    · subst hw
      have hba : OracleReply.sentence (chars "evin") = OracleReply.sentence cw :=
        (rfl : oracleC9 (chars "ev") = OracleReply.sentence (chars "evin")).symm.trans hsen
      cases hba
      exact ⟨by decide, by decide⟩
    · have hf : oracleC9 w = .falsy := by
        unfold oracleC9
        rw [if_neg hw]
      rw [hf] at hsen
      exact absurd hsen (by simp)
  have hinf : ∀ w ∈ pySplit (pyStrip (chars "ev.")),
      cleanWord w ≠ [] → cleanWord w <:+: w := by
    intro w hw
    have hweq : w = chars "ev." := by
      have hsp : pySplit (pyStrip (chars "ev.")) = [chars "ev."] := rfl
      rw [hsp] at hw
      simpa using hw
    subst hweq
    intro
    decide
  exact ⟨hcons, rfl, rfl,
    rerun_yields_no_errors oracleC9 5 5 (chars "ev.") respC9a respC9b hcons hwf hinf rfl rfl⟩
